import Mathlib

set_option maxRecDepth 8192

/-!
Verification of the pixel-level color-transform and color-analysis pipeline of
the pillow-cli repository (src/pillow-cli).  Python source functions are
shallowly embedded as executable Lean definitions: machine floats are modelled
by exact rational/integer arithmetic (the decimal literals of the source are
taken at face value), Python `int()` truncation on non-negative values is
floor, and fallible code returns `Except`.
-/

namespace PillowCLI

/-- An RGB pixel: a triple of channel intensities (red, green, blue). -/
abbrev RGB : Type := ℕ × ℕ × ℕ

/-- A raster image: width, height, and a row-major list of RGB pixels
(`pixels[y*width + x]` is the pixel at column `x`, row `y`). -/
structure Img where
  width : ℕ
  height : ℕ
  pixels : List RGB

/-- Well-formedness of an image: the pixel list has `width*height` entries and
every channel intensity lies in `[0,255]`. -/
def Img.valid (img : Img) : Prop :=
  img.pixels.length = img.width * img.height ∧
    ∀ p ∈ img.pixels, p.1 ≤ 255 ∧ p.2.1 ≤ 255 ∧ p.2.2 ≤ 255

/-! ## Sepia (EffectProcessor._apply_sepia, image_processors.py lines 253-262)

    tr = int(0.393 * r + 0.769 * g + 0.189 * b)
    tg = int(0.349 * r + 0.686 * g + 0.168 * b)
    tb = int(0.272 * r + 0.534 * g + 0.131 * b)
    pixels[x, y] = (min(255, tr), min(255, tg), min(255, tb))

With exact arithmetic `int(0.393*r + ...)` on non-negative inputs is the floor
of `(393*r + 769*g + 189*b) / 1000`, i.e. natural-number division. -/

/-- One pixel of the sepia transform. -/
def sepiaPixel (p : RGB) : RGB :=
  (min 255 ((393 * p.1 + 769 * p.2.1 + 189 * p.2.2) / 1000),
   min 255 ((349 * p.1 + 686 * p.2.1 + 168 * p.2.2) / 1000),
   min 255 ((272 * p.1 + 534 * p.2.1 + 131 * p.2.2) / 1000))

/-- The sepia effect over a whole pixel list.  The source rewrites each pixel
of the buffer in place, but each new value depends only on that pixel's old
value, so the loop is a per-pixel map. -/
def applySepia (pixels : List RGB) : List RGB :=
  pixels.map sepiaPixel

/-- C1: for every RGB image, the sepia effect maps each pixel (r,g,b) to
(min(255, ⌊0.393r+0.769g+0.189b⌋), min(255, ⌊0.349r+0.686g+0.168b⌋),
min(255, ⌊0.272r+0.534g+0.131b⌋)) — each channel truncated and clamped above
at 255 — so every output channel lies in [0,255]. -/
theorem sepia_pixel_formula_and_range (pixels : List RGB) (q : RGB)
    (hq : q ∈ applySepia pixels) :
    (∃ p ∈ pixels,
      q = (min 255 ((393 * p.1 + 769 * p.2.1 + 189 * p.2.2) / 1000),
           min 255 ((349 * p.1 + 686 * p.2.1 + 168 * p.2.2) / 1000),
           min 255 ((272 * p.1 + 534 * p.2.1 + 131 * p.2.2) / 1000))) ∧
    q.1 ≤ 255 ∧ q.2.1 ≤ 255 ∧ q.2.2 ≤ 255 := by
  rcases List.mem_map.mp hq with ⟨p, hp, hpq⟩
  refine ⟨⟨p, hp, hpq.symm⟩, ?_, ?_, ?_⟩ <;>
    simp [← hpq, sepiaPixel]

/-- Witness for C1: evaluate the theorem at the one-pixel image [(10,20,30)]. -/
theorem sepia_pixel_formula_and_range_witness :
    (sepiaPixel (10, 20, 30)) ∈ applySepia [(10, 20, 30)] ∧
    ((∃ p ∈ [((10 : ℕ), (20 : ℕ), (30 : ℕ))],
      sepiaPixel (10, 20, 30)
        = (min 255 ((393 * p.1 + 769 * p.2.1 + 189 * p.2.2) / 1000),
           min 255 ((349 * p.1 + 686 * p.2.1 + 168 * p.2.2) / 1000),
           min 255 ((272 * p.1 + 534 * p.2.1 + 131 * p.2.2) / 1000))) ∧
    (sepiaPixel (10, 20, 30)).1 ≤ 255 ∧ (sepiaPixel (10, 20, 30)).2.1 ≤ 255 ∧
      (sepiaPixel (10, 20, 30)).2.2 ≤ 255) :=
  ⟨by decide, sepia_pixel_formula_and_range [(10, 20, 30)] _ (by decide)⟩

/-- C9: the sepia transform is not idempotent: there is an RGB image (all
channels in [0,255]) on which applying sepia twice differs from applying it
once.  The image [(255,255,255)] maps to [(255,255,238)] and then to
[(255,255,236)]. -/
theorem sepia_not_idempotent :
    ∃ pixels : List RGB,
      (∀ p ∈ pixels, p.1 ≤ 255 ∧ p.2.1 ≤ 255 ∧ p.2.2 ≤ 255) ∧
      applySepia (applySepia pixels) ≠ applySepia pixels := by
  refine ⟨[(255, 255, 255)], by decide, by decide⟩

/-! ## Histogram analysis (analyze_histogram, color_analysis.py lines 11-44)

    hist_r = image.histogram()[0:256]      (counts of each red level 0..255)
    avg_r = sum(i * hist_r[i] for i in range(256)) / sum(hist_r)

The per-channel mean divides by `sum(hist_r)` with no guard: on a zero-pixel
image Python raises ZeroDivisionError.  The fallible computation is embedded
as `Except`; a `zeroDivision` outcome models that unguarded runtime failure,
while `emptyImage` is the distinct error kind the specification names. -/

/-- The red-channel values of an image, in pixel order. -/
def redValues (img : Img) : List ℕ :=
  img.pixels.map fun p => p.1

/-- The green-channel values of an image, in pixel order. -/
def greenValues (img : Img) : List ℕ :=
  img.pixels.map fun p => p.2.1

/-- The blue-channel values of an image, in pixel order. -/
def blueValues (img : Img) : List ℕ :=
  img.pixels.map fun p => p.2.2

/-- `histR img v` is `image.histogram()[v]` for `v < 256`: the number of
pixels whose red channel equals `v`. -/
def histR (img : Img) (v : ℕ) : ℕ :=
  (redValues img).count v

/-- Green-channel histogram entry (`image.histogram()[256+v]`). -/
def histG (img : Img) (v : ℕ) : ℕ :=
  (greenValues img).count v

/-- Blue-channel histogram entry (`image.histogram()[512+v]`). -/
def histB (img : Img) (v : ℕ) : ℕ :=
  (blueValues img).count v

/-- Summing, over the 256 intensity levels, the number of occurrences of each
level in a list of values bounded by 255 recovers the length of the list. -/
theorem sum_range_count (l : List ℕ) (hl : ∀ x ∈ l, x ≤ 255) :
    ∑ v ∈ Finset.range 256, l.count v = l.length := by
  induction l with
  | nil => simp
  | cons a t ih =>
    have ha : a ∈ Finset.range 256 := by
      have := hl a (List.mem_cons_self a t)
      exact Finset.mem_range.mpr (by omega)
    have ht : ∀ x ∈ t, x ≤ 255 := fun x hx => hl x (List.mem_cons_of_mem a hx)
    have hsum : (∑ v ∈ Finset.range 256, (if a == v then 1 else 0)) = 1 := by
      simp only [beq_iff_eq]
      rw [Finset.sum_ite_eq, if_pos ha]
    calc ∑ v ∈ Finset.range 256, (a :: t).count v
        = ∑ v ∈ Finset.range 256, (t.count v + if a == v then 1 else 0) :=
          Finset.sum_congr rfl fun v _ => List.count_cons v a t
      _ = (∑ v ∈ Finset.range 256, t.count v)
            + ∑ v ∈ Finset.range 256, (if a == v then 1 else 0) :=
          Finset.sum_add_distrib
      _ = t.length + 1 := by rw [ih ht, hsum]
      _ = (a :: t).length := by rw [List.length_cons]

/-- C2: for every valid image, each of the three channel histograms is a
sequence of 256 counts summing to width*height, the reported total pixel
count. -/
theorem histogram_channel_sums (img : Img) (h : img.valid) :
    (∑ v ∈ Finset.range 256, histR img v) = img.width * img.height ∧
    (∑ v ∈ Finset.range 256, histG img v) = img.width * img.height ∧
    (∑ v ∈ Finset.range 256, histB img v) = img.width * img.height := by
  obtain ⟨hlen, hbound⟩ := h
  refine ⟨?_, ?_, ?_⟩
  · simp only [histR]
    rw [sum_range_count]
    · simpa [redValues] using hlen
    · intro x hx
      rcases List.mem_map.mp hx with ⟨p, hp, rfl⟩
      exact (hbound p hp).1
  · simp only [histG]
    rw [sum_range_count]
    · simpa [greenValues] using hlen
    · intro x hx
      rcases List.mem_map.mp hx with ⟨p, hp, rfl⟩
      exact (hbound p hp).2.1
  · simp only [histB]
    rw [sum_range_count]
    · simpa [blueValues] using hlen
    · intro x hx
      rcases List.mem_map.mp hx with ⟨p, hp, rfl⟩
      exact (hbound p hp).2.2

/-- Witness for C2: a 2x1 image with one black and one white pixel. -/
theorem histogram_channel_sums_witness :
    (Img.mk 2 1 [(0, 0, 0), (255, 255, 255)]).valid ∧
    ((∑ v ∈ Finset.range 256, histR (Img.mk 2 1 [(0, 0, 0), (255, 255, 255)]) v) = 2 * 1 ∧
     (∑ v ∈ Finset.range 256, histG (Img.mk 2 1 [(0, 0, 0), (255, 255, 255)]) v) = 2 * 1 ∧
     (∑ v ∈ Finset.range 256, histB (Img.mk 2 1 [(0, 0, 0), (255, 255, 255)]) v) = 2 * 1) :=
  ⟨⟨rfl, by decide⟩, histogram_channel_sums _ ⟨rfl, by decide⟩⟩

/-- Outcomes of the histogram mean computation: `zeroDivision` models the
unguarded Python ZeroDivisionError raised by `/` on a zero denominator;
`emptyImage` is the specific error kind named by the specification. -/
inductive AnalysisError where
  | emptyImage
  | zeroDivision
deriving DecidableEq

instance {ε α : Type} [DecidableEq ε] [DecidableEq α] : DecidableEq (Except ε α) := fun a b =>
  match a, b with
  | Except.error e, Except.error f =>
      if h : e = f then Decidable.isTrue (by rw [h])
      else Decidable.isFalse fun hc => h (Except.error.inj hc)
  | Except.error _, Except.ok _ => Decidable.isFalse fun hc => Except.noConfusion hc
  | Except.ok _, Except.error _ => Decidable.isFalse fun hc => Except.noConfusion hc
  | Except.ok v, Except.ok w =>
      if h : v = w then Decidable.isTrue (by rw [h])
      else Decidable.isFalse fun hc => h (Except.ok.inj hc)

/-- `avg = sum(i * hist[i] for i in range(256)) / sum(hist)`: the source
divides directly; a zero denominator is the Python ZeroDivisionError. -/
def channelMean (counts : ℕ → ℕ) : Except AnalysisError ℚ :=
  if (∑ v ∈ Finset.range 256, counts v) = 0 then Except.error AnalysisError.zeroDivision
  else Except.ok ((∑ v ∈ Finset.range 256, (v : ℚ) * counts v)
                    / (∑ v ∈ Finset.range 256, (counts v : ℚ)))

/-- The three per-channel means computed by `analyze_histogram` (lines 33-35),
in source order: the first failing division aborts the computation. -/
def analyzeHistogramMeans (img : Img) : Except AnalysisError (ℚ × ℚ × ℚ) :=
  (channelMean (histR img)).bind fun r =>
    (channelMean (histG img)).bind fun g =>
      (channelMean (histB img)).bind fun b => Except.ok (r, g, b)

/-- The zero-pixel image. -/
def emptyImg : Img := Img.mk 0 0 []

/-- Counterexample to C5: on the zero-pixel image the mean computation fails
with the unguarded division-by-zero, not with an `EmptyImage` error. -/
theorem histogram_zero_pixels_counterexample :
    analyzeHistogramMeans emptyImg = Except.error AnalysisError.zeroDivision ∧
    analyzeHistogramMeans emptyImg ≠ Except.error AnalysisError.emptyImage := by
  constructor
  · decide
  · decide

/-- C5 (amended): for every valid zero-pixel image the histogram summary
fails with the generic division-by-zero error — the division
`Σ(level × count) / Σ(count)` is not guarded, and no `EmptyImage` error
exists in the code. -/
theorem histogram_mean_zero_pixels (img : Img) (h : img.valid)
    (h0 : img.width * img.height = 0) :
    analyzeHistogramMeans img = Except.error AnalysisError.zeroDivision := by
  have hnil : img.pixels = [] := List.eq_nil_of_length_eq_zero (h.1.trans h0)
  have hr : (∑ v ∈ Finset.range 256, histR img v) = 0 := by
    have : ∀ v, histR img v = 0 := by
      intro v
      show (redValues img).count v = 0
      rw [redValues, hnil]
      simp
    simp [this]
  rw [analyzeHistogramMeans, channelMean, if_pos hr]
  rfl

/-- Witness for the amended C5 at the concrete zero-pixel image. -/
theorem histogram_mean_zero_pixels_witness :
    emptyImg.valid ∧ emptyImg.width * emptyImg.height = 0 ∧
      analyzeHistogramMeans emptyImg = Except.error AnalysisError.zeroDivision :=
  ⟨⟨rfl, by decide⟩, rfl, histogram_mean_zero_pixels emptyImg ⟨rfl, by decide⟩ rfl⟩

/-! ## Collage layout (CollageCreator.create_collage, image_operations.py lines 12-33)

    rows = (len(images) + cols - 1) // cols
    collage_width = cols * max_width + (cols + 1) * padding
    collage_height = rows * max_height + (rows + 1) * padding
    row = i // cols; col = i % cols
    x = col * (max_width + padding) + padding
    y = row * (max_height + padding) + padding

The layout arithmetic is embedded as functions of the item count `n`, the
column count `cols`, the common cell size `cw × chh` (the maxima of the input
sizes) and the padding. -/

/-- Number of grid rows: `(len(images) + cols - 1) // cols`. -/
def collageRows (n cols : ℕ) : ℕ :=
  (n + cols - 1) / cols

/-- Horizontal position of item `i`: `(i % cols) * (max_width + padding) + padding`. -/
def collageX (cw padding i cols : ℕ) : ℕ :=
  (i % cols) * (cw + padding) + padding

/-- Vertical position of item `i`: `(i // cols) * (max_height + padding) + padding`. -/
def collageY (chh padding i cols : ℕ) : ℕ :=
  (i / cols) * (chh + padding) + padding

/-- Canvas width: `cols * max_width + (cols + 1) * padding`. -/
def collageWidth (cols cw padding : ℕ) : ℕ :=
  cols * cw + (cols + 1) * padding

/-- Canvas height: `rows * max_height + (rows + 1) * padding`. -/
def collageHeight (n cols chh padding : ℕ) : ℕ :=
  collageRows n cols * chh + (collageRows n cols + 1) * padding

/-- The point `(px, py)` lies in the `cw × chh` bounding box pasted for item `i`. -/
def inCellBox (cw chh padding cols i px py : ℕ) : Prop :=
  collageX cw padding i cols ≤ px ∧ px < collageX cw padding i cols + cw ∧
  collageY chh padding i cols ≤ py ∧ py < collageY chh padding i cols + chh

/-- Two grid cells at one-dimensional indices `c1 < c2` cannot share a
coordinate: the end of cell `c1` precedes the start of cell `c2`. -/
theorem cell_gap (s p c1 c2 px : ℕ) (h : c1 < c2)
    (h1 : px < c1 * (s + p) + p + s)
    (h2 : c2 * (s + p) + p ≤ px) : False := by
  have key : (c1 + 1) * (s + p) ≤ c2 * (s + p) :=
    mul_le_mul_right' (Nat.succ_le_of_lt h) _
  have e1 : (c1 + 1) * (s + p) = c1 * (s + p) + s + p := by ring
  linarith

/-- A cell at one-dimensional index `c < m` ends within an `m`-cell canvas. -/
theorem cell_within (s p c m : ℕ) (h : c < m) :
    c * (s + p) + p + s ≤ m * s + (m + 1) * p := by
  have key : (c + 1) * (s + p) ≤ m * (s + p) :=
    mul_le_mul_right' (Nat.succ_le_of_lt h) _
  have e1 : (c + 1) * (s + p) = c * (s + p) + s + p := by ring
  have e2 : m * (s + p) = m * s + m * p := by ring
  have e3 : (m + 1) * p = m * p + p := by ring
  linarith

/-- For `n ≥ 1` items the row index of any item `i < n` is below the computed
row count. -/
theorem item_row_lt_rows (n cols i : ℕ) (hn : 1 ≤ n) (hcols : 1 ≤ cols)
    (hi : i < n) : i / cols < collageRows n cols := by
  have hrows : collageRows n cols = (n - 1) / cols + 1 := by
    show (n + cols - 1) / cols = (n - 1) / cols + 1
    rw [show n + cols - 1 = (n - 1) + cols by omega]
    exact Nat.add_div_right (n - 1) hcols
  have hle : i / cols ≤ (n - 1) / cols := Nat.div_le_div_right (by omega)
  rw [hrows]
  exact Nat.lt_succ_of_le hle

/-- C3: for every n ≥ 1, cols ≥ 1, cell sizes ≥ 1 and any padding, the
collage layout computes rows = ⌈n/cols⌉, every item's cell bounding box lies
within the canvas of size (cols*cw+(cols+1)*padding) ×
(rows*chh+(rows+1)*padding), and no two items' boxes overlap. -/
theorem collage_layout (n cols cw chh padding : ℕ)
    (hn : 1 ≤ n) (hcols : 1 ≤ cols) (hcw : 1 ≤ cw) (hchh : 1 ≤ chh) :
    collageRows n cols = n ⌈/⌉ cols ∧
    (∀ i < n,
      collageX cw padding i cols + cw ≤ collageWidth cols cw padding ∧
      collageY chh padding i cols + chh ≤ collageHeight n cols chh padding) ∧
    (∀ i < n, ∀ j < n, i ≠ j → ∀ px py,
      ¬(inCellBox cw chh padding cols i px py ∧
        inCellBox cw chh padding cols j px py)) := by
  refine ⟨(Nat.ceilDiv_eq_add_pred_div n cols).symm, ?_, ?_⟩
  · intro i hi
    constructor
    · have hm : i % cols < cols := Nat.mod_lt i (by omega)
      exact cell_within cw padding (i % cols) cols hm
    · have hr : i / cols < collageRows n cols := item_row_lt_rows n cols i hn hcols hi
      exact cell_within chh padding (i / cols) (collageRows n cols) hr
  · intro i hi j hj hij px py ⟨⟨hx1, hx2, hy1, hy2⟩, hx3, hx4, hy3, hy4⟩
    by_cases hcol : i % cols = j % cols
    · have hrow : i / cols ≠ j / cols := by
        intro hr
        apply hij
        calc i = cols * (i / cols) + i % cols := (Nat.div_add_mod i cols).symm
          _ = cols * (j / cols) + j % cols := by rw [hr, hcol]
          _ = j := Nat.div_add_mod j cols
      rcases Nat.lt_or_ge (i / cols) (j / cols) with h | h
      · exact cell_gap chh padding (i / cols) (j / cols) py h hy2 hy3
      · have h' : j / cols < i / cols :=
          Nat.lt_of_le_of_ne h fun e => hrow e.symm
        exact cell_gap chh padding (j / cols) (i / cols) py h' hy4 hy1
    · rcases Nat.lt_or_ge (i % cols) (j % cols) with h | h
      · exact cell_gap cw padding (i % cols) (j % cols) px h hx2 hx3
      · have h' : j % cols < i % cols :=
          Nat.lt_of_le_of_ne h fun e => hcol e.symm
        exact cell_gap cw padding (j % cols) (i % cols) px h' hx4 hx1

/-- Witness for C3 at n = 3 items, 2 columns, 2x2 cells, padding 1. -/
theorem collage_layout_witness :
    (1 ≤ 3 ∧ 1 ≤ 2 ∧ 1 ≤ 2 ∧ 1 ≤ 2) ∧
    (collageRows 3 2 = 3 ⌈/⌉ 2 ∧
     (∀ i < 3,
       collageX 2 1 i 2 + 2 ≤ collageWidth 2 2 1 ∧
       collageY 2 1 i 2 + 2 ≤ collageHeight 3 2 2 1) ∧
     (∀ i < 3, ∀ j < 3, i ≠ j → ∀ px py,
       ¬(inCellBox 2 2 1 2 i px py ∧ inCellBox 2 2 1 2 j px py))) :=
  ⟨⟨by decide, by decide, by decide, by decide⟩,
    collage_layout 3 2 2 2 1 (by decide) (by decide) (by decide) (by decide)⟩

/-! ## Vignette mask (VignetteProcessor.process, image_processors.py lines 308-330)

    mask = Image.new('L', (width, height), 0)
    center_x, center_y = width // 2, height // 2
    max_radius = min(center_x, center_y)
    steps = 100
    for i in range(steps):
        radius = max_radius * (i / steps)
        alpha = int(255 * (1 - strength * (i / steps)))
        mask_draw.ellipse([center_x - radius, center_y - radius,
                           center_x + radius, center_y + radius], fill=alpha)

Floats are modelled by exact rationals.  The library collaborator
`ImageDraw.ellipse` (filled circle) is modelled as painting every pixel whose
integer coordinates lie within `radius` of the integer center; later circles
overwrite earlier ones, and pixels covered by no circle keep the initial mask
value 0. -/

/-- Python `int()` truncation toward zero on a rational. -/
def ratTrunc (q : ℚ) : ℤ :=
  if 0 ≤ q then ⌊q⌋ else ⌈q⌉

/-- The alpha painted at step `i`: `int(255 * (1 - strength * (i / steps)))`
with `steps = 100`. -/
def vignetteAlpha (s : ℚ) (i : ℕ) : ℤ :=
  ratTrunc (255 * (1 - s * ((i : ℚ) / 100)))

/-- `max_radius = min(width // 2, height // 2)`. -/
def vignetteMaxRadius (w h : ℕ) : ℕ :=
  min (w / 2) (h / 2)

/-- Pixel `(x, y)` lies in the step-`i` circle: its squared distance from the
center `(width // 2, height // 2)` is at most `(max_radius * (i/100))²`. -/
def inCircle (w h i x y : ℕ) : Bool :=
  decide (((x : ℚ) - ((w / 2 : ℕ) : ℚ)) * ((x : ℚ) - ((w / 2 : ℕ) : ℚ))
      + ((y : ℚ) - ((h / 2 : ℕ) : ℚ)) * ((y : ℚ) - ((h / 2 : ℕ) : ℚ))
    ≤ (((vignetteMaxRadius w h : ℕ) : ℚ) * ((i : ℚ) / 100))
        * (((vignetteMaxRadius w h : ℕ) : ℚ) * ((i : ℚ) / 100)))

/-- One loop iteration: paint the step-`i` filled circle with its alpha over
the current mask. -/
def paintStep (w h : ℕ) (s : ℚ) (m : ℕ → ℕ → ℤ) (i : ℕ) : ℕ → ℕ → ℤ :=
  fun x y => if inCircle w h i x y then vignetteAlpha s i else m x y

/-- The vignette mask after the 100 painting steps, as a function from pixel
coordinates to the painted alpha (initial value 0 everywhere). -/
def vignetteMask (w h : ℕ) (s : ℚ) : ℕ → ℕ → ℤ :=
  (List.range 100).foldl (paintStep w h s) fun _ _ => 0

/-- At strength 0 every step paints alpha `int(255 * 1) = 255`. -/
theorem vignetteAlpha_zero (i : ℕ) : vignetteAlpha 0 i = 255 := by
  unfold vignetteAlpha ratTrunc
  rw [show (255 : ℚ) * (1 - 0 * ((i : ℚ) / 100)) = 255 by ring]
  rw [if_pos (by norm_num)]
  norm_num

/-- Painting any list of strength-0 circles over a mask yields 255 on pixels
covered by some circle of the list and the underlying mask elsewhere. -/
theorem foldl_paint_zero (w h : ℕ) (l : List ℕ) (m : ℕ → ℕ → ℤ) (x y : ℕ) :
    (l.foldl (paintStep w h 0) m) x y
      = if l.any (fun i => inCircle w h i x y) then 255 else m x y := by
  induction l generalizing m with
  | nil => simp
  | cons a t ih =>
    rw [List.foldl_cons, ih]
    by_cases hc : inCircle w h a x y = true
    · by_cases hany : (t.any fun i => inCircle w h i x y) = true
      · simp [List.any_cons, hc, hany]
      · simp [List.any_cons, hc, hany, paintStep, vignetteAlpha_zero]
    · simp [List.any_cons, hc, paintStep]

/-- Circle radii grow with the step index: a pixel inside the step-`i` circle,
`i ≤ 99`, is inside the step-99 circle. -/
theorem inCircle_mono (w h i x y : ℕ) (hi : i ≤ 99)
    (hc : inCircle w h i x y = true) : inCircle w h 99 x y = true := by
  unfold inCircle at *
  rw [decide_eq_true_eq] at *
  refine le_trans hc ?_
  have h0 : (0 : ℚ) ≤ ((vignetteMaxRadius w h : ℕ) : ℚ) * ((i : ℚ) / 100) := by
    positivity
  have hle : ((vignetteMaxRadius w h : ℕ) : ℚ) * ((i : ℚ) / 100)
      ≤ ((vignetteMaxRadius w h : ℕ) : ℚ) * ((99 : ℚ) / 100) := by
    apply mul_le_mul_of_nonneg_left ?_ (by positivity)
    apply div_le_div_of_nonneg_right ?_ (by norm_num)
    exact_mod_cast hi
  exact mul_le_mul hle hle h0 (by positivity)

/-- Some circle of the 100 steps covers `(x, y)` exactly when the largest
(step-99) circle does. -/
theorem range_any_inCircle (w h x y : ℕ) :
    ((List.range 100).any fun i => inCircle w h i x y) = inCircle w h 99 x y := by
  cases hc : inCircle w h 99 x y
  · rw [List.any_eq_false]
    intro i hi
    rw [List.mem_range] at hi
    intro hci
    have := inCircle_mono w h i x y (by omega) hci
    rw [hc] at this
    exact Bool.false_ne_true this
  · rw [List.any_eq_true]
    exact ⟨99, List.mem_range.mpr (by omega), hc⟩

/-- C6 (amended): at strength 0 the mask is 255 at every pixel covered by the
largest painted circle (radius max_radius·99/100 around the integer center)
and 0 at every uncovered pixel (the corners of a non-degenerate image), so it
is not uniform in general: the overlay is fully opaque on a central disc and
fully transparent outside it. -/
theorem vignette_strength_zero_mask (w h x y : ℕ) :
    vignetteMask w h 0 x y = if inCircle w h 99 x y then 255 else 0 := by
  unfold vignetteMask
  rw [foldl_paint_zero, range_any_inCircle]

/-- Counterexample to C6: on a 4x4 image with strength 0 the corner pixel
keeps alpha 0 while the center pixel is painted 255, so the minimum and
maximum alpha of the mask differ. -/
theorem vignette_strength_zero_not_uniform :
    vignetteMask 4 4 0 0 0 = 0 ∧ vignetteMask 4 4 0 2 2 = 255 ∧
    ¬(∀ x, x < 4 → ∀ y, y < 4 → ∀ x', x' < 4 → ∀ y', y' < 4 →
        vignetteMask 4 4 0 x y = vignetteMask 4 4 0 x' y') := by
  have hcorner : inCircle 4 4 99 0 0 = false := by
    unfold inCircle
    apply decide_eq_false
    norm_num [vignetteMaxRadius]
  have hcenter : inCircle 4 4 99 2 2 = true := by
    unfold inCircle
    apply decide_eq_true
    norm_num [vignetteMaxRadius]
  have h0 : vignetteMask 4 4 0 0 0 = 0 := by
    unfold vignetteMask
    rw [foldl_paint_zero, range_any_inCircle, hcorner]
    rfl
  have h255 : vignetteMask 4 4 0 2 2 = 255 := by
    unfold vignetteMask
    rw [foldl_paint_zero, range_any_inCircle, hcenter]
    rfl
  refine ⟨h0, h255, fun hall => ?_⟩
  have h := hall 0 (by norm_num) 0 (by norm_num) 2 (by norm_num) 2 (by norm_num)
  rw [h0, h255] at h
  exact absurd h (by norm_num)

/-- The step-`i` alpha as the specification states it: rounded to the nearest
integer rather than truncated. -/
def vignetteAlphaClaim (s : ℚ) (i : ℕ) : ℤ :=
  round (255 * (1 - s * ((i : ℚ) / 100)))

/-- Counterexample to C7: at strength 1/2, step 1, the exact value is
253.725; the code truncates to 253 while the claimed rounding gives 254. -/
theorem vignette_alpha_not_round :
    vignetteAlpha (1/2) 1 = 253 ∧ vignetteAlphaClaim (1/2) 1 = 254 ∧
    vignetteAlpha (1/2) 1 ≠ vignetteAlphaClaim (1/2) 1 := by
  have h1 : vignetteAlpha (1/2) 1 = 253 := by
    unfold vignetteAlpha ratTrunc
    rw [if_pos (by norm_num)]
    norm_num
  have h2 : vignetteAlphaClaim (1/2) 1 = 254 := by
    unfold vignetteAlphaClaim
    rw [round_eq]
    norm_num
  exact ⟨h1, h2, by rw [h1, h2]; norm_num⟩

/-- C7 (amended): for strength in [0,1] and step i < 100 the painted alpha is
the floor (= Python int() truncation, the value being non-negative) of
255·(1 − strength·(i/100)), and it lies in [0, 255]. -/
theorem vignette_alpha_floor (s : ℚ) (hs0 : 0 ≤ s) (hs1 : s ≤ 1)
    (i : ℕ) (hi : i < 100) :
    vignetteAlpha s i = ⌊255 * (1 - s * ((i : ℚ) / 100))⌋ ∧
    0 ≤ vignetteAlpha s i ∧ vignetteAlpha s i ≤ 255 := by
  have hfrac0 : (0 : ℚ) ≤ (i : ℚ) / 100 := by positivity
  have hfrac1 : (i : ℚ) / 100 ≤ 1 := by
    rw [div_le_one (by norm_num)]
    exact_mod_cast Nat.le_of_lt (by omega)
  have hmul0 : 0 ≤ s * ((i : ℚ) / 100) := mul_nonneg hs0 hfrac0
  have hmul1 : s * ((i : ℚ) / 100) ≤ 1 := mul_le_one₀ hs1 hfrac0 hfrac1
  have hq0 : (0 : ℚ) ≤ 255 * (1 - s * ((i : ℚ) / 100)) := by nlinarith
  have hq255 : 255 * (1 - s * ((i : ℚ) / 100)) ≤ 255 := by nlinarith
  have htr : vignetteAlpha s i = ⌊255 * (1 - s * ((i : ℚ) / 100))⌋ := by
    unfold vignetteAlpha ratTrunc
    rw [if_pos hq0]
  refine ⟨htr, ?_, ?_⟩
  · rw [htr]
    exact Int.floor_nonneg.mpr hq0
  · rw [htr]
    calc ⌊255 * (1 - s * ((i : ℚ) / 100))⌋ ≤ ⌊(255 : ℚ)⌋ := Int.floor_le_floor hq255
      _ = 255 := by norm_num

/-- Witness for the amended C7 at strength 1/2, step 1. -/
theorem vignette_alpha_floor_witness :
    ((0 : ℚ) ≤ 1/2 ∧ (1/2 : ℚ) ≤ 1 ∧ 1 < 100) ∧
    (vignetteAlpha (1/2) 1 = ⌊255 * (1 - (1/2) * (((1 : ℕ) : ℚ) / 100))⌋ ∧
     0 ≤ vignetteAlpha (1/2) 1 ∧ vignetteAlpha (1/2) 1 ≤ 255) :=
  ⟨⟨by norm_num, by norm_num, by norm_num⟩,
    vignette_alpha_floor (1/2) (by norm_num) (by norm_num) 1 (by norm_num)⟩

/-! ## Crop (CropProcessor.process, image_processors.py lines 114-123)

    img_width, img_height = image.size
    if x + width > img_width or y + height > img_height:
        raise ValueError(...)
    cropped_image = image.crop((x, y, x + width, y + height))

The CLI parses x, y, width, height with `type=int` and no bounds, so all of
ℤ is reachable.  The raised ValueError is the `InvalidParameter` kind. -/

inductive CropError where
  | invalidParameter
deriving DecidableEq

/-- The crop check and the crop box the source hands to `image.crop`: fail
iff `x + width > img_width or y + height > img_height`, else return the box
(x, y, x+width, y+height). -/
def cropProcess (imgW imgH x y w h : ℤ) : Except CropError (ℤ × ℤ × ℤ × ℤ) :=
  if x + w > imgW ∨ y + h > imgH then Except.error CropError.invalidParameter
  else Except.ok (x, y, x + w, y + h)

/-- The rectangle with top-left (x, y) and size w × h lies entirely within
the bounds of an imgW × imgH image. -/
def rectWithin (imgW imgH x y w h : ℤ) : Prop :=
  0 ≤ x ∧ 0 ≤ y ∧ x + w ≤ imgW ∧ y + h ≤ imgH

/-- Counterexample to C8: on a 10×10 image the request x = -5, y = 0,
width = 10, height = 5 has a rectangle that leaves the image on the left,
yet the crop operation does not fail (it returns the box (-5, 0, 5, 5)),
refuting the claimed "fails if and only if the rectangle does not lie within
the image bounds". -/
theorem crop_negative_offset_counterexample :
    cropProcess 10 10 (-5) 0 10 5 = Except.ok (-5, 0, 5, 5) ∧
    ¬ rectWithin 10 10 (-5) 0 10 5 := by
  constructor
  · unfold cropProcess
    rw [if_neg (by omega)]
    norm_num
  · unfold rectWithin
    omega

/-- C8 (amended): the crop operation fails with InvalidParameter exactly when
x+width > img_width or y+height > img_height; for requests with x ≥ 0 and
y ≥ 0 this is equivalent to the rectangle not lying within the image bounds,
and on success the returned crop box is (x, y, x+width, y+height), of size
width × height.  Requests with negative offsets are not rejected even when
their rectangle leaves the bounds. -/
theorem crop_bounds_check (imgW imgH x y w h : ℤ) (hx : 0 ≤ x) (hy : 0 ≤ y) :
    (cropProcess imgW imgH x y w h = Except.error CropError.invalidParameter
       ↔ ¬ rectWithin imgW imgH x y w h) ∧
    (rectWithin imgW imgH x y w h →
       cropProcess imgW imgH x y w h = Except.ok (x, y, x + w, y + h) ∧
       (x + w) - x = w ∧ (y + h) - y = h) := by
  unfold cropProcess rectWithin
  constructor
  · by_cases hc : x + w > imgW ∨ y + h > imgH
    · rw [if_pos hc]
      exact ⟨fun _ => by omega, fun _ => rfl⟩
    · rw [if_neg hc]
      exact ⟨fun hco => Except.noConfusion hco,
             fun hni => absurd ⟨hx, hy, by omega, by omega⟩ hni⟩
  · intro hrect
    rw [if_neg (by omega)]
    exact ⟨rfl, by ring, by ring⟩

/-- Witness for the amended C8 at an in-bounds request on a 10×10 image. -/
theorem crop_bounds_check_witness :
    ((0 : ℤ) ≤ 1 ∧ (0 : ℤ) ≤ 2) ∧
    ((cropProcess 10 10 1 2 3 4 = Except.error CropError.invalidParameter
        ↔ ¬ rectWithin 10 10 1 2 3 4) ∧
     (rectWithin 10 10 1 2 3 4 →
        cropProcess 10 10 1 2 3 4 = Except.ok (1, 2, 1 + 3, 2 + 4) ∧
        ((1 : ℤ) + 3) - 1 = 3 ∧ ((2 : ℤ) + 4) - 2 = 4)) :=
  ⟨⟨by norm_num, by norm_num⟩,
    crop_bounds_check 10 10 1 2 3 4 (by norm_num) (by norm_num)⟩

/-! ## Adjustment (AdjustmentProcessor.process, image_processors.py lines 86-108)

    result_image = image
    if brightness != 1.0: result_image = ImageEnhance.Brightness(result_image).enhance(brightness)
    if contrast != 1.0:   result_image = ImageEnhance.Contrast(result_image).enhance(contrast)
    if saturation != 1.0: result_image = ImageEnhance.Color(result_image).enhance(saturation)
    if sharpness != 1.0:  result_image = ImageEnhance.Sharpness(result_image).enhance(sharpness)

The four library enhancers are collaborators; they are abstracted as an
arbitrary function `enhance` over an arbitrary image type, applied exactly
where the source applies them. -/

/-- The four enhancement steps of the adjust operation. -/
inductive EnhanceKind where
  | brightness
  | contrast
  | color
  | sharpness

/-- AdjustmentProcessor.process over an abstract image type `α` and abstract
library enhancers. -/
def adjustmentProcess {α : Type} (enhance : EnhanceKind → ℚ → α → α)
    (image : α) (brightness contrast saturation sharpness : ℚ) : α :=
  let r1 := if brightness ≠ 1 then enhance EnhanceKind.brightness brightness image else image
  let r2 := if contrast ≠ 1 then enhance EnhanceKind.contrast contrast r1 else r1
  let r3 := if saturation ≠ 1 then enhance EnhanceKind.color saturation r2 else r2
  if sharpness ≠ 1 then enhance EnhanceKind.sharpness sharpness r3 else r3

/-- C10: with brightness = contrast = saturation = sharpness = 1.0 every
enhancement step is skipped and the adjust operation returns its input image
unchanged, whatever the library enhancers do. -/
theorem adjustment_identity {α : Type} (enhance : EnhanceKind → ℚ → α → α)
    (image : α) :
    adjustmentProcess enhance image 1 1 1 1 = image := by
  unfold adjustmentProcess
  simp

/-! ## Dominant colors, fallback path (extract_color_palette, color_analysis.py lines 73-90)

    unique_colors = {}
    for pixel in pixels:
        color = tuple(pixel)
        unique_colors[color] = unique_colors.get(color, 0) + 1
    sorted_colors = sorted(unique_colors.items(), key=lambda x: x[1], reverse=True)
    top_colors = [list(color[0]) for color in sorted_colors[:num_colors]]

Python dicts preserve insertion order, so `unique_colors.items()` lists the
distinct colors in first-encountered order of the row-major pixel traversal,
each with its exact frequency.  `sorted(..., key=lambda x: x[1],
reverse=True)` is a stable sort, descending by count; it is embedded as
insertion sort with the total preorder "count at least count", which is
sorted, a permutation, and stable (ties keep their input order). -/

/-- `unique_colors[color] = unique_colors.get(color, 0) + 1` over an
insertion-ordered association list. -/
def bumpColor : List (RGB × ℕ) → RGB → List (RGB × ℕ)
  | [], c => [(c, 1)]
  | (d, n) :: t, c => if d = c then (d, n + 1) :: t else (d, n) :: bumpColor t c

/-- The color-frequency dict built by the fallback loop, as an association
list in insertion (first-encounter) order. -/
def countColors (pixels : List RGB) : List (RGB × ℕ) :=
  pixels.foldl bumpColor []

/-- The dict's key order: the distinct colors in first-encounter order of the
row-major traversal. -/
def distinctColors (pixels : List RGB) : List RGB :=
  (countColors pixels).map Prod.fst

/-- The descending sort order of `sorted(..., key=lambda x: x[1],
reverse=True)`: the first entry's count is at least the second's. -/
def freqGE (a b : RGB × ℕ) : Prop :=
  b.2 ≤ a.2

instance : DecidableRel freqGE := fun a b => Nat.decLe b.2 a.2

instance : IsTotal (RGB × ℕ) freqGE := ⟨fun a b => Nat.le_total b.2 a.2⟩

instance : IsTrans (RGB × ℕ) freqGE := ⟨fun _ _ _ h1 h2 => le_trans h2 h1⟩

/-- The stable descending-by-count sort of the dict items. -/
def sortColorsDesc (l : List (RGB × ℕ)) : List (RGB × ℕ) :=
  List.insertionSort freqGE l

/-- `sorted_colors[:num_colors]` projected to colors: the returned palette. -/
def topColors (pixels : List RGB) (k : ℕ) : List RGB :=
  ((sortColorsDesc (countColors pixels)).take k).map Prod.fst

/-- The count stored in an association list for a key (0 if absent). -/
def assocCount : List (RGB × ℕ) → RGB → ℕ
  | [], _ => 0
  | (d, n) :: t, c => if d = c then n else assocCount t c

theorem assocCount_bumpColor (l : List (RGB × ℕ)) (p c : RGB) :
    assocCount (bumpColor l p) c = assocCount l c + (if c = p then 1 else 0) := by
  induction l with
  | nil =>
    by_cases h : c = p
    · subst h
      simp [bumpColor, assocCount]
    · have h' : ¬(p = c) := fun e => h e.symm
      simp [bumpColor, assocCount, h, h']
  | cons a t ih =>
    obtain ⟨d, n⟩ := a
    by_cases hdp : d = p
    · subst hdp
      by_cases hcd : d = c
      · subst hcd
        simp [bumpColor, assocCount]
      · have h' : ¬(c = d) := fun e => hcd e.symm
        simp [bumpColor, assocCount, hcd, h']
    · by_cases hdc : d = c
      · subst hdc
        simp [bumpColor, assocCount, hdp]
      · simp [bumpColor, assocCount, hdp, hdc, ih]

theorem assocCount_countColors (pixels : List RGB) (c : RGB) :
    assocCount (countColors pixels) c = pixels.count c := by
  suffices h : ∀ acc, assocCount (pixels.foldl bumpColor acc) c
      = assocCount acc c + pixels.count c by
    simpa [countColors, assocCount] using h []
  induction pixels with
  | nil =>
    intro acc
    simp
  | cons p t ih =>
    intro acc
    rw [List.foldl_cons, ih (bumpColor acc p), assocCount_bumpColor,
      List.count_cons]
    by_cases h : c = p
    · subst h
      simp
      omega
    · have h' : ¬(p = c) := fun e => h e.symm
      simp [h, h']

theorem map_fst_bumpColor (l : List (RGB × ℕ)) (p : RGB) :
    (bumpColor l p).map Prod.fst
      = if p ∈ l.map Prod.fst then l.map Prod.fst
        else l.map Prod.fst ++ [p] := by
  induction l with
  | nil => simp [bumpColor]
  | cons a t ih =>
    obtain ⟨d, n⟩ := a
    by_cases hdp : d = p
    · subst hdp
      simp [bumpColor]
    · have h' : ¬(p = d) := fun e => hdp e.symm
      by_cases hp : p ∈ t.map Prod.fst
      · simp [bumpColor, hdp, ih, hp, h']
      · simp [bumpColor, hdp, ih, hp, h']

theorem mem_distinctColors (pixels : List RGB) (c : RGB) :
    c ∈ distinctColors pixels ↔ c ∈ pixels := by
  suffices h : ∀ acc, (c ∈ ((pixels.foldl bumpColor acc).map Prod.fst)
      ↔ c ∈ acc.map Prod.fst ∨ c ∈ pixels) by
    simpa [distinctColors, countColors] using h []
  induction pixels with
  | nil =>
    intro acc
    simp
  | cons p t ih =>
    intro acc
    rw [List.foldl_cons, ih (bumpColor acc p), map_fst_bumpColor]
    by_cases hp : p ∈ acc.map Prod.fst
    · simp only [if_pos hp, List.mem_cons]
      constructor
      · rintro (h | h)
        · exact Or.inl h
        · exact Or.inr (Or.inr h)
      · rintro (h | h | h)
        · exact Or.inl h
        · exact Or.inl (h ▸ hp)
        · exact Or.inr h
    · simp only [if_neg hp, List.mem_append, List.mem_singleton, List.mem_cons]
      tauto

theorem nodup_distinctColors (pixels : List RGB) :
    (distinctColors pixels).Nodup := by
  suffices h : ∀ acc : List (RGB × ℕ), (acc.map Prod.fst).Nodup →
      ((pixels.foldl bumpColor acc).map Prod.fst).Nodup by
    exact h [] (by simp)
  induction pixels with
  | nil =>
    intro acc h
    simpa using h
  | cons p t ih =>
    intro acc h
    rw [List.foldl_cons]
    apply ih
    rw [map_fst_bumpColor]
    by_cases hp : p ∈ acc.map Prod.fst
    · simpa [hp] using h
    · simp [hp, List.nodup_append, h]

theorem assocCount_of_mem (l : List (RGB × ℕ)) (c : RGB) (n : ℕ)
    (hnd : (l.map Prod.fst).Nodup) (h : (c, n) ∈ l) : assocCount l c = n := by
  induction l with
  | nil => cases h
  | cons a t ih =>
    obtain ⟨d, m⟩ := a
    rcases List.mem_cons.mp h with he | ht
    · obtain ⟨rfl, rfl⟩ : c = d ∧ n = m := by
        constructor <;> [exact congrArg Prod.fst he; exact congrArg Prod.snd he]
      simp [assocCount]
    · have hc : c ∈ t.map Prod.fst := List.mem_map.mpr ⟨(c, n), ht, rfl⟩
      have hcons : (d ∉ t.map Prod.fst) ∧ (t.map Prod.fst).Nodup := by
        rw [List.map_cons] at hnd
        exact ⟨(List.nodup_cons.mp hnd).1, (List.nodup_cons.mp hnd).2⟩
      have hdc : ¬(d = c) := fun e => hcons.1 (e ▸ hc)
      simp only [assocCount, if_neg hdc]
      exact ih hcons.2 ht

theorem mem_countColors_count (pixels : List RGB) (c : RGB) (n : ℕ)
    (h : (c, n) ∈ countColors pixels) : n = pixels.count c := by
  have hnd : ((countColors pixels).map Prod.fst).Nodup := nodup_distinctColors pixels
  rw [← assocCount_of_mem (countColors pixels) c n hnd h, assocCount_countColors]

theorem filter_orderedInsert (a : RGB × ℕ) (l : List (RGB × ℕ)) (v : ℕ) :
    (List.orderedInsert freqGE a l).filter (fun q => q.2 = v)
      = if a.2 = v then a :: l.filter (fun q => q.2 = v)
        else l.filter (fun q => q.2 = v) := by
  rw [List.orderedInsert_eq_take_drop, List.filter_append]
  have htw : ((l.takeWhile fun b => decide ¬ freqGE a b).filter
      (fun q => decide (q.2 = v))) = [] ∨ ¬(a.2 = v) := by
    by_cases hv : a.2 = v
    · left
      apply List.filter_eq_nil_iff.mpr
      intro q hq
      have hgt := List.mem_takeWhile_imp hq
      rw [decide_eq_true_eq] at hgt
      have : a.2 < q.2 := Nat.lt_of_not_le hgt
      simp only [decide_eq_true_eq]
      omega
    · right
      exact hv
  by_cases hv : a.2 = v
  · rcases htw with hnil | hcontra
    · rw [hnil, if_pos hv, List.filter_cons_of_pos (by simp [hv])]
      have hl : l.filter (fun q => decide (q.2 = v))
          = ((l.takeWhile fun b => decide ¬ freqGE a b).filter (fun q => decide (q.2 = v)))
            ++ ((l.dropWhile fun b => decide ¬ freqGE a b).filter (fun q => decide (q.2 = v))) := by
        rw [← List.filter_append,
          List.takeWhile_append_dropWhile (fun b => decide ¬ freqGE a b) l]
      rw [hl, hnil]
      simp
    · exact absurd hv hcontra
  · rw [List.filter_cons_of_neg (by simp [hv]), if_neg hv, ← List.filter_append,
      List.takeWhile_append_dropWhile (fun b => decide ¬ freqGE a b) l]

theorem filter_sortColorsDesc (l : List (RGB × ℕ)) (v : ℕ) :
    (sortColorsDesc l).filter (fun q => q.2 = v) = l.filter (fun q => q.2 = v) := by
  induction l with
  | nil => rfl
  | cons a t ih =>
    show (List.orderedInsert freqGE a (List.insertionSort freqGE t)).filter _ = _
    rw [filter_orderedInsert]
    by_cases hv : a.2 = v
    · rw [if_pos hv, List.filter_cons_of_pos (by simp [hv])]
      exact congrArg (a :: ·) ih
    · rw [if_neg hv, List.filter_cons_of_neg (by simp [hv])]
      exact ih

theorem countColors_replicate (c : RGB) (n : ℕ) (hn : 1 ≤ n) :
    countColors (List.replicate n c) = [(c, n)] := by
  have aux : ∀ j m, (List.replicate j c).foldl bumpColor [(c, m)] = [(c, m + j)] := by
    intro j
    induction j with
    | zero =>
      intro m
      simp
    | succ j ih =>
      intro m
      rw [List.replicate_succ, List.foldl_cons,
        show bumpColor [(c, m)] c = [(c, m + 1)] by simp [bumpColor], ih (m + 1),
        show m + 1 + j = m + (j + 1) by omega]
  obtain ⟨n', rfl⟩ : ∃ n', n = n' + 1 := ⟨n - 1, by omega⟩
  rw [countColors, List.replicate_succ, List.foldl_cons,
    show bumpColor [] c = [(c, 1)] from rfl, aux n' 1,
    show 1 + n' = n' + 1 by omega]

/-- C4: on the fallback path, for every pixel list and k ≥ 1 the returned
swatches are the first k colors of the stable count-descending sort of the
distinct colors (frequencies are non-increasing; ties keep first-encounter
order, expressed by the per-count filter equality); at most k and exactly
min k (number of distinct colors) swatches are returned, and a solid-color
image yields exactly one swatch for any k ≥ 1. -/
theorem palette_fallback (pixels : List RGB) (k : ℕ) (hk : 1 ≤ k) :
    List.Pairwise (fun c d => pixels.count d ≤ pixels.count c) (topColors pixels k) ∧
    (topColors pixels k).length = min k (distinctColors pixels).length ∧
    (distinctColors pixels).Nodup ∧
    (∀ c, c ∈ distinctColors pixels ↔ c ∈ pixels) ∧
    (∀ v, (sortColorsDesc (countColors pixels)).filter (fun q => q.2 = v)
        = (countColors pixels).filter (fun q => q.2 = v)) ∧
    (∀ c n, 1 ≤ n → topColors (List.replicate n c) k = [c]) := by
  refine ⟨?_, ?_, nodup_distinctColors pixels, fun c => mem_distinctColors pixels c,
    fun v => filter_sortColorsDesc (countColors pixels) v, ?_⟩
  · have hsorted : List.Pairwise freqGE (sortColorsDesc (countColors pixels)) :=
      List.sorted_insertionSort freqGE (countColors pixels)
    have htake : List.Pairwise freqGE ((sortColorsDesc (countColors pixels)).take k) :=
      hsorted.sublist (List.take_sublist k _)
    have hmem : ∀ q ∈ (sortColorsDesc (countColors pixels)).take k,
        q.2 = pixels.count q.1 := by
      intro q hq
      have h1 : q ∈ sortColorsDesc (countColors pixels) :=
        (List.take_sublist k _).subset hq
      have h2 : q ∈ countColors pixels :=
        ((List.perm_insertionSort freqGE (countColors pixels)).mem_iff).mp h1
      exact mem_countColors_count pixels q.1 q.2 h2
    show List.Pairwise _ (((sortColorsDesc (countColors pixels)).take k).map Prod.fst)
    rw [List.pairwise_map]
    refine htake.imp_of_mem ?_
    intro a b ha hb hab
    rw [← hmem a ha, ← hmem b hb]
    exact hab
  · show (((sortColorsDesc (countColors pixels)).take k).map Prod.fst).length
      = min k ((countColors pixels).map Prod.fst).length
    rw [List.length_map, List.length_take, List.length_map]
    show k ⊓ (List.insertionSort freqGE (countColors pixels)).length
      = k ⊓ (countColors pixels).length
    rw [(List.perm_insertionSort freqGE (countColors pixels)).length_eq]
  · intro c n hn
    show (((sortColorsDesc (countColors (List.replicate n c))).take k).map Prod.fst) = [c]
    rw [countColors_replicate c n hn,
      show sortColorsDesc [(c, n)] = [(c, n)] from rfl,
      List.take_of_length_le (by simpa using hk)]
    rfl

/-- Witness for C4 at pixels [(1,1,1), (2,2,2), (1,1,1)] and k = 2. -/
theorem palette_fallback_witness :
    1 ≤ 2 ∧
    (List.Pairwise
        (fun c d => [((1:ℕ),(1:ℕ),(1:ℕ)), (2,2,2), (1,1,1)].count d
          ≤ [((1:ℕ),(1:ℕ),(1:ℕ)), (2,2,2), (1,1,1)].count c)
        (topColors [((1:ℕ),(1:ℕ),(1:ℕ)), (2,2,2), (1,1,1)] 2) ∧
     (topColors [((1:ℕ),(1:ℕ),(1:ℕ)), (2,2,2), (1,1,1)] 2).length
        = min 2 (distinctColors [((1:ℕ),(1:ℕ),(1:ℕ)), (2,2,2), (1,1,1)]).length ∧
     (distinctColors [((1:ℕ),(1:ℕ),(1:ℕ)), (2,2,2), (1,1,1)]).Nodup ∧
     (∀ c, c ∈ distinctColors [((1:ℕ),(1:ℕ),(1:ℕ)), (2,2,2), (1,1,1)]
        ↔ c ∈ [((1:ℕ),(1:ℕ),(1:ℕ)), (2,2,2), (1,1,1)]) ∧
     (∀ v, (sortColorsDesc (countColors [((1:ℕ),(1:ℕ),(1:ℕ)), (2,2,2), (1,1,1)])).filter
            (fun q => q.2 = v)
        = (countColors [((1:ℕ),(1:ℕ),(1:ℕ)), (2,2,2), (1,1,1)]).filter (fun q => q.2 = v)) ∧
     (∀ c n, 1 ≤ n → topColors (List.replicate n c) 2 = [c])) :=
  ⟨by decide, palette_fallback [((1:ℕ),(1:ℕ),(1:ℕ)), (2,2,2), (1,1,1)] 2 (by decide)⟩

end PillowCLI
